import Mathlib

/-!
# Verification of the Stern-Brocot rational approximation program

Shallow embedding of `src/ch03/3-21.rs`.  Machine `i64` values are
modelled as unbounded `Int` (the program treats overflow as a known,
unguarded limitation; the explicit overflow-bound claim is stated against
the constant `i64MAX` below); Rust `%` and `/` on `i64` are `Int.tmod`
and `Int.tdiv` (truncation toward zero, exactly Rust's semantics).
`f64` values are modelled as exact rationals `ℚ`.  A Rust panic
(integer division by zero) is modelled by `Option`: `none` means the
call faulted, or - for the fuel-indexed loops - that the fuel ran out.
-/

/-- `i64::MAX`. -/
def i64MAX : Int := 9223372036854775807

/-- The `Rational` struct of the program: a numerator/denominator pair of
signed 64-bit integers (modelled as `Int`). -/
structure Rational where
  numer : Int
  denom : Int
deriving DecidableEq

namespace Rational

/-- `|a.tmod b| = |a| % |b|`: Rust's `%` truncates, so the absolute value of
the remainder is the `Nat` remainder of the absolute values. -/
theorem natAbs_tmod (a b : Int) : (a.tmod b).natAbs = a.natAbs % b.natAbs := by
  cases a <;> cases b <;>
    simp only [Int.tmod, Int.natAbs_neg, Int.natAbs_ofNat, Int.natAbs_negSucc] <;> rfl

/-- For a nonzero divisor the truncated remainder is strictly smaller in
absolute value; this is the measure for `Rational::gcd`. -/
theorem natAbs_tmod_lt (a : Int) {b : Int} (hb : b ≠ 0) :
    (a.tmod b).natAbs < b.natAbs := by
  rw [natAbs_tmod]
  exact Nat.mod_lt _ (Int.natAbs_pos.mpr hb)

/-- Structural unfolding of the Euclidean recursion: `fuel` bounds the
recursion depth so the kernel can evaluate it; `Rational.gcd` below always
supplies enough fuel (`|b| + 1`), so the `0`-fuel arm is never reached
(theorem `gcd_eq` recovers the source's exact recursion). -/
def gcdAux : Nat → Int → Int → Int
  | 0, a, _ => a
  | fuel + 1, a, b => if b = 0 then a else Rational.gcdAux fuel b (a.tmod b)

/-- `Rational::gcd`: Euclidean recursion using Rust's `%` (= `Int.tmod`).
`gcd(a, 0) = a`, `gcd(a, b) = gcd(b, a % b)` otherwise (theorem `gcd_eq`). -/
def gcd (a b : Int) : Int :=
  Rational.gcdAux (b.natAbs + 1) a b

/-- Any fuel beyond the recursion depth gives the same result. -/
theorem gcdAux_fuel : ∀ (fuel : Nat) (a b : Int), b.natAbs < fuel →
    Rational.gcdAux fuel a b = Rational.gcdAux (b.natAbs + 1) a b := by
  intro fuel
  induction fuel using Nat.strong_induction_on with
  | _ fuel ih =>
    intro a b hfb
    match fuel, hfb with
    | f + 1, hfb =>
      by_cases hb : b = 0
      · subst hb
        simp [Rational.gcdAux]
      · rw [Rational.gcdAux, if_neg hb, Rational.gcdAux, if_neg hb]
        have h1 : (a.tmod b).natAbs < b.natAbs := natAbs_tmod_lt a hb
        rw [ih f (Nat.lt_succ_self f) b (a.tmod b) (by omega),
          ih b.natAbs (by omega) b (a.tmod b) h1]

/-- `Rational::gcd` satisfies exactly the source's recursion:
`gcd(a, 0) = a` and `gcd(a, b) = gcd(b, a % b)` for `b ≠ 0`. -/
theorem gcd_eq (a b : Int) :
    Rational.gcd a b = if b = 0 then a else Rational.gcd b (a.tmod b) := by
  by_cases hb : b = 0
  · subst hb
    simp [Rational.gcd, Rational.gcdAux]
  · rw [if_neg hb]
    unfold Rational.gcd
    rw [Rational.gcdAux, if_neg hb]
    exact gcdAux_fuel b.natAbs b (a.tmod b) (natAbs_tmod_lt a hb)

/-- Euclidean induction principle following `Rational::gcd`'s recursion. -/
theorem gcd_induction (P : Int → Int → Prop)
    (base : ∀ a, P a 0)
    (step : ∀ a b, b ≠ 0 → P b (a.tmod b) → P a b) :
    ∀ a b, P a b := by
  have H : ∀ (n : Nat) (a b : Int), b.natAbs = n → P a b := by
    intro n
    induction n using Nat.strong_induction_on with
    | _ n ih =>
      intro a b hn
      by_cases hb : b = 0
      · subst hb
        exact base a
      · exact step a b hb (ih (a.tmod b).natAbs (hn ▸ natAbs_tmod_lt a hb)
          b (a.tmod b) rfl)
  exact fun a b => H b.natAbs a b rfl

/-- `Rational::new`: divide both components by `gcd(numer, denom)`.
Rust's `/` on `i64` is `Int.tdiv`; when the gcd is `0` (i.e. both inputs
are `0`) the division `numer / g` panics, modelled by `none`. -/
def new (numer denom : Int) : Option Rational :=
  if Rational.gcd numer denom = 0 then none
  else some ⟨numer.tdiv (Rational.gcd numer denom),
             denom.tdiv (Rational.gcd numer denom)⟩

/-- `Rational::value`: `numer as f64 / denom as f64`, modelled exactly in
`ℚ` (division by zero yields `0` in `ℚ`; the program never compares a
denominator-zero value on the paths verified below).  Written with
`Rat.divInt` so the kernel can evaluate it on concrete inputs; theorem
`value_def` states that this is exactly cast-and-divide. -/
def value (r : Rational) : ℚ :=
  Rat.divInt r.numer r.denom

/-- `value` is the quotient of the casts of the two components. -/
theorem value_def (r : Rational) : r.value = (r.numer : ℚ) / (r.denom : ℚ) :=
  Rat.divInt_eq_div r.numer r.denom

/-- Kernel-computable form of addition on `ℚ` (theorem `qadd_eq`), used
for the program's `value + error_bound` band edge. -/
def qadd (a b : ℚ) : ℚ :=
  Rat.divInt (a.num * (b.den : Int) + b.num * (a.den : Int))
    ((a.den : Int) * (b.den : Int))

/-- Kernel-computable form of subtraction on `ℚ` (theorem `qsub_eq`), used
for the program's `value - error_bound` band edge. -/
def qsub (a b : ℚ) : ℚ :=
  Rat.divInt (a.num * (b.den : Int) - b.num * (a.den : Int))
    ((a.den : Int) * (b.den : Int))

/-- `qadd` is addition on `ℚ`. -/
theorem qadd_eq (a b : ℚ) : Rational.qadd a b = a + b := by
  have ha : ((a.den : ℚ)) ≠ 0 := by exact_mod_cast a.den_ne_zero
  have hb : ((b.den : ℚ)) ≠ 0 := by exact_mod_cast b.den_ne_zero
  conv_rhs => rw [← Rat.num_div_den a, ← Rat.num_div_den b]
  rw [div_add_div _ _ ha hb]
  unfold Rational.qadd
  rw [Rat.divInt_eq_div]
  push_cast
  ring_nf

/-- `qsub` is subtraction on `ℚ`. -/
theorem qsub_eq (a b : ℚ) : Rational.qsub a b = a - b := by
  have ha : ((a.den : ℚ)) ≠ 0 := by exact_mod_cast a.den_ne_zero
  have hb : ((b.den : ℚ)) ≠ 0 := by exact_mod_cast b.den_ne_zero
  conv_rhs => rw [← Rat.num_div_den a, ← Rat.num_div_den b]
  rw [div_sub_div _ _ ha hb]
  unfold Rational.qsub
  rw [Rat.divInt_eq_div]
  push_cast
  ring_nf

/-- `impl ops::Add for Rational`. -/
def add (a b : Rational) : Option Rational :=
  Rational.new (a.numer * b.denom + a.denom * b.numer) (a.denom * b.denom)

/-- `impl ops::Sub for Rational`. -/
def sub (a b : Rational) : Option Rational :=
  Rational.new (a.numer * b.denom - a.denom * b.numer) (a.denom * b.denom)

/-- `impl ops::Mul for Rational`. -/
def mul (a b : Rational) : Option Rational :=
  Rational.new (a.numer * b.numer) (a.denom * b.denom)

/-- `impl ops::Div for Rational`. -/
def div (a b : Rational) : Option Rational :=
  Rational.new (a.numer * b.denom) (a.denom * b.numer)

/-- `impl ops::Neg for Rational`. -/
def neg (a : Rational) : Option Rational :=
  Rational.new (-a.numer) a.denom

/-- The absolute value of `Rational::gcd` is the gcd of the absolute values. -/
theorem natAbs_gcd (a b : Int) :
    (Rational.gcd a b).natAbs = Nat.gcd a.natAbs b.natAbs := by
  induction a, b using Rational.gcd_induction with
  | base a =>
    rw [gcd_eq]
    simp
  | step a b hb ih =>
    rw [gcd_eq, if_neg hb, ih, natAbs_tmod, Nat.gcd_comm b.natAbs,
      ← Nat.gcd_rec]
    exact Nat.gcd_comm _ _

/-- `Rational::gcd` divides both of its arguments. -/
theorem gcd_dvd (a b : Int) : Rational.gcd a b ∣ a ∧ Rational.gcd a b ∣ b := by
  induction a, b using Rational.gcd_induction with
  | base a =>
    rw [gcd_eq]
    simp
  | step a b hb ih =>
    rw [gcd_eq, if_neg hb]
    refine ⟨?_, ih.1⟩
    have ha : b * a.tdiv b + a.tmod b = a := Int.tdiv_add_tmod a b
    calc Rational.gcd b (a.tmod b) ∣ b * a.tdiv b + a.tmod b :=
          Dvd.dvd.add (Dvd.dvd.mul_right ih.1 _) ih.2
      _ = a := ha

/-- `Rational::gcd` of nonnegative arguments is nonnegative. -/
theorem gcd_nonneg (a b : Int) : 0 ≤ a → 0 ≤ b → 0 ≤ Rational.gcd a b := by
  induction a, b using Rational.gcd_induction with
  | base a =>
    intro ha _
    rw [gcd_eq]
    simpa using ha
  | step a b h ih =>
    intro ha hb
    rw [gcd_eq, if_neg h]
    exact ih hb (Int.tmod_nonneg b ha)

/-- `Rational::gcd` vanishes exactly on the pair `(0, 0)`. -/
theorem gcd_eq_zero_iff {a b : Int} :
    Rational.gcd a b = 0 ↔ a = 0 ∧ b = 0 := by
  rw [← Int.natAbs_eq_zero, natAbs_gcd, Nat.gcd_eq_zero_iff,
    Int.natAbs_eq_zero, Int.natAbs_eq_zero]

/-- Reduction by the gcd does not change the rational value of the pair
(`value` of the constructed `Rational` equals the direct quotient). -/
theorem new_value {n d : Int} {r : Rational} (h : Rational.new n d = some r) :
    r.value = (n : ℚ) / (d : ℚ) := by
  unfold Rational.new at h
  by_cases hg : Rational.gcd n d = 0
  · simp [hg] at h
  · simp only [if_neg hg, Option.some.injEq] at h
    have hdvd1 : Rational.gcd n d ∣ n := (gcd_dvd n d).1
    have hdvd2 : Rational.gcd n d ∣ d := (gcd_dvd n d).2
    generalize hG : Rational.gcd n d = g at hg h hdvd1 hdvd2
    obtain ⟨n2, hn⟩ := hdvd1
    obtain ⟨d2, hd⟩ := hdvd2
    subst hn hd
    rw [← h, value_def]
    simp only [Int.mul_tdiv_cancel_left _ hg]
    push_cast
    rw [mul_div_mul_left _ _ (by exact_mod_cast hg)]

/-- Recursion depth of `Rational::gcd` (each call counts one frame). -/
def gcdDepth (a b : Int) : Nat :=
  if b = 0 then 1
  else Rational.gcdDepth b (a.tmod b) + 1
termination_by b.natAbs
decreasing_by exact natAbs_tmod_lt a (by assumption)

/-- The loop of `Rational::from`, indexed by fuel (`none` = fuel exhausted
or a constructor fault propagated; the source loop has no fuel bound). -/
def fromLoop (v e : ℚ) : Nat → Rational → Rational → Option Rational
  | 0, _, _ => none
  | fuel + 1, l, u =>
    (Rational.new (l.numer + u.numer) (l.denom + u.denom)).bind fun m =>
      if m.value < Rational.qsub v e then
        (Rational.new m.numer m.denom).bind fun l2 =>
          Rational.fromLoop v e fuel l2 u
      else if m.value > Rational.qadd v e then
        (Rational.new m.numer m.denom).bind fun u2 =>
          Rational.fromLoop v e fuel l u2
      else Rational.new m.numer m.denom

/-- `Rational::from` (the keyword `from` is not a legal Lean name):
initial bounds `0/1` and `1/0`, then the mediant loop. -/
def fromVal (v e : ℚ) (fuel : Nat) : Option Rational :=
  (Rational.new 0 1).bind fun l =>
    (Rational.new 1 0).bind fun u => Rational.fromLoop v e fuel l u

/-- The `(end_bound, start_bound)` selection at the top of
`Rational::parametric_search`. -/
def psearchBounds (start endr : Rational) : Int × Int :=
  if endr.numer > endr.denom then (endr.numer, start.numer)
  else (endr.denom, start.denom)

/-- The binary-search loop of `Rational::parametric_search`, indexed by
fuel.  `sn sd en ed` are `start_numer start_denom end_numer end_denom`;
Rust `/` on `i64` is `Int.tdiv`.  The probe `Rational` is built (a `0/0`
probe would panic, hence the `none` propagation) before the
`mid == upper_bound` early return, exactly as in the source. -/
def psearchLoop (direction : Bool) (sn sd en ed : Int) (v e : ℚ) :
    Nat → Int → Int → Option Int
  | 0, _, _ => none
  | fuel + 1, lower, upper =>
    (Rational.new (sn + ((lower + upper).tdiv 2) * en)
        (sd + ((lower + upper).tdiv 2) * ed)).bind fun midr =>
      if (lower + upper).tdiv 2 = upper then some upper
      else if direction = false ∧ midr.value < Rational.qsub v e then
        Rational.psearchLoop direction sn sd en ed v e fuel lower
          ((lower + upper).tdiv 2)
      else if direction = false ∧ midr.value > Rational.qadd v e then
        Rational.psearchLoop direction sn sd en ed v e fuel
          ((lower + upper).tdiv 2 + 1) upper
      else if direction = true ∧ midr.value > Rational.qadd v e then
        Rational.psearchLoop direction sn sd en ed v e fuel lower
          ((lower + upper).tdiv 2)
      else if direction = true ∧ midr.value < Rational.qsub v e then
        Rational.psearchLoop direction sn sd en ed v e fuel
          ((lower + upper).tdiv 2 + 1) upper
      else some ((lower + upper).tdiv 2)

/-- `Rational::parametric_search`: select the overflow bounds, set the
window to `[1, (i64::MAX - start_bound) / end_bound]` and run the loop
(`end_bound = 0` makes the initial division panic, modelled by `none`). -/
def parametric_search (direction : Bool) (start endr : Rational) (v e : ℚ)
    (fuel : Nat) : Option Int :=
  if (Rational.psearchBounds start endr).1 = 0 then none
  else
    Rational.psearchLoop direction start.numer start.denom endr.numer
      endr.denom v e fuel 1
      ((i64MAX - (Rational.psearchBounds start endr).2).tdiv
        (Rational.psearchBounds start endr).1)

/-- The loop of `Rational::fast_from`, indexed by fuel for the outer loop
and `psfuel` for each embedded `parametric_search` call. -/
def fastFromLoop (v e : ℚ) (psfuel : Nat) :
    Nat → Rational → Rational → Option Rational
  | 0, _, _ => none
  | fuel + 1, l, u =>
    (Rational.new (l.numer + u.numer) (l.denom + u.denom)).bind fun m =>
      if m.value < Rational.qsub v e then
        (Rational.parametric_search true m u v e psfuel).bind fun c =>
          (Rational.new (m.numer + (c - 1) * u.numer)
              (m.denom + (c - 1) * u.denom)).bind fun l2 =>
            Rational.fastFromLoop v e psfuel fuel l2 u
      else if m.value > Rational.qadd v e then
        (Rational.parametric_search false m l v e psfuel).bind fun c =>
          (Rational.new (m.numer + (c - 1) * l.numer)
              (m.denom + (c - 1) * l.denom)).bind fun u2 =>
            Rational.fastFromLoop v e psfuel fuel l u2
      else Rational.new m.numer m.denom

/-- `Rational::fast_from`: initial bounds `0/1` and `1/0`, then the
accelerated mediant loop. -/
def fast_from (v e : ℚ) (fuel psfuel : Nat) : Option Rational :=
  (Rational.new 0 1).bind fun l =>
    (Rational.new 1 0).bind fun u => Rational.fastFromLoop v e psfuel fuel l u

/-- Exact value of the probe point `start + c*end` used by
`parametric_search` and by the leap in `fast_from` (`c-1` steps). -/
def candVal (start endr : Rational) (c : Int) : ℚ :=
  ((start.numer + c * endr.numer : Int) : ℚ) /
    ((start.denom + c * endr.denom : Int) : ℚ)

/-- The side of the tolerance band a probe must be on for the search to
keep extending in its `direction` (`true`: below `v - e`, the
"mediant too low" branch; `false`: above `v + e`). -/
def pside (direction : Bool) (v e q : ℚ) : Prop :=
  if direction then q < v - e else v + e < q

/-- `parametric_search` never returns on the given input, whatever fuel it
is given: the source loop runs forever there (no fault occurs on the
path, so `none` can only mean exhausted fuel). -/
def parametric_searchDiverges (direction : Bool) (start endr : Rational)
    (v e : ℚ) : Prop :=
  ∀ fuel, Rational.parametric_search direction start endr v e fuel = none

/-- The unimodular Stern-Brocot interval invariant of both search engines,
together with the sign facts that keep every constructed pair nonnegative:
`u.numer * l.denom - l.numer * u.denom = 1`, the lower bound has
nonnegative numerator and positive denominator, the upper bound has
positive numerator and nonnegative denominator. -/
def SBInv (l u : Rational) : Prop :=
  u.numer * l.denom - l.numer * u.denom = 1 ∧
    0 ≤ l.numer ∧ 1 ≤ l.denom ∧ 1 ≤ u.numer ∧ 0 ≤ u.denom

/-- `Rational::new` faults (integer division by zero on `numer / g`)
exactly when both arguments are zero. -/
theorem new_eq_none_iff {n d : Int} :
    Rational.new n d = none ↔ n = 0 ∧ d = 0 := by
  unfold Rational.new
  rw [← gcd_eq_zero_iff (a := n) (b := d)]
  by_cases hg : Rational.gcd n d = 0
  · simp [hg]
  · simp [hg]

/-- Whenever `Rational::from`'s loop returns, the returned value is within
`error_bound` of the target (the loop only breaks inside the tolerance
band, and gcd reduction preserves the value). -/
theorem fromLoop_tolerance (v e : ℚ) :
    ∀ (fuel : Nat) (l u r : Rational),
      Rational.fromLoop v e fuel l u = some r → |r.value - v| ≤ e := by
  intro fuel
  induction fuel with
  | zero =>
    intro l u r h
    exact absurd h (by simp [Rational.fromLoop])
  | succ fuel ih =>
    intro l u r h
    simp only [Rational.fromLoop] at h
    obtain ⟨m, hm, h2⟩ := Option.bind_eq_some.mp h
    by_cases h3 : m.value < Rational.qsub v e
    · rw [if_pos h3] at h2
      obtain ⟨l2, hl2, h4⟩ := Option.bind_eq_some.mp h2
      exact ih l2 u r h4
    · rw [if_neg h3] at h2
      by_cases h5 : m.value > Rational.qadd v e
      · rw [if_pos h5] at h2
        obtain ⟨u2, hu2, h4⟩ := Option.bind_eq_some.mp h2
        exact ih l u2 r h4
      · rw [if_neg h5] at h2
        have hv : r.value = m.value := by rw [new_value h2, value_def]
        have h6 : v - e ≤ m.value := by
          have := not_lt.mp h3
          rwa [qsub_eq] at this
        have h7 : m.value ≤ v + e := by
          have := not_lt.mp h5
          rwa [qadd_eq] at this
        rw [hv, abs_sub_le_iff]
        constructor <;> linarith

/-- Whenever `Rational::fast_from`'s loop returns, the returned value is
within `error_bound` of the target. -/
theorem fastFromLoop_tolerance (v e : ℚ) (psfuel : Nat) :
    ∀ (fuel : Nat) (l u r : Rational),
      Rational.fastFromLoop v e psfuel fuel l u = some r →
        |r.value - v| ≤ e := by
  intro fuel
  induction fuel with
  | zero =>
    intro l u r h
    exact absurd h (by simp [Rational.fastFromLoop])
  | succ fuel ih =>
    intro l u r h
    simp only [Rational.fastFromLoop] at h
    obtain ⟨m, hm, h2⟩ := Option.bind_eq_some.mp h
    by_cases h3 : m.value < Rational.qsub v e
    · rw [if_pos h3] at h2
      obtain ⟨c, hc, h4⟩ := Option.bind_eq_some.mp h2
      obtain ⟨l2, hl2, h5⟩ := Option.bind_eq_some.mp h4
      exact ih l2 u r h5
    · rw [if_neg h3] at h2
      by_cases h5 : m.value > Rational.qadd v e
      · rw [if_pos h5] at h2
        obtain ⟨c, hc, h4⟩ := Option.bind_eq_some.mp h2
        obtain ⟨u2, hu2, h6⟩ := Option.bind_eq_some.mp h4
        exact ih l u2 r h6
      · rw [if_neg h5] at h2
        have hv : r.value = m.value := by rw [new_value h2, value_def]
        have h6 : v - e ≤ m.value := by
          have := not_lt.mp h3
          rwa [qsub_eq] at this
        have h7 : m.value ≤ v + e := by
          have := not_lt.mp h5
          rwa [qadd_eq] at this
        rw [hv, abs_sub_le_iff]
        constructor <;> linarith

end Rational

/-- C1: for every target `v` and positive `error_bound` on which the call
terminates, `Rational::from(v, error_bound)` returns a value with
`|result.value() - v| <= error_bound`, and `Rational::fast_from` satisfies
the same bound; both engines land within the tolerance band (bit-identical
results are not required). -/
theorem engines_within_error_bound (f g : Nat) (v e : ℚ) (r s : Rational)
    (he : 0 < e) :
    (Rational.fromVal v e f = some r → |r.value - v| ≤ e) ∧
    (Rational.fast_from v e f g = some s → |s.value - v| ≤ e) := by
  constructor
  · intro h
    unfold Rational.fromVal at h
    obtain ⟨l, hl, h2⟩ := Option.bind_eq_some.mp h
    obtain ⟨u, hu, h3⟩ := Option.bind_eq_some.mp h2
    exact Rational.fromLoop_tolerance v e f l u r h3
  · intro h
    unfold Rational.fast_from at h
    obtain ⟨l, hl, h2⟩ := Option.bind_eq_some.mp h
    obtain ⟨u, hu, h3⟩ := Option.bind_eq_some.mp h2
    exact Rational.fastFromLoop_tolerance v e g f l u s h3

/-- C1 witness: at `v = 10`, `error_bound = 2`, `from` terminates with
`8/1` and `fast_from` with `9/1`, both within the bound. -/
theorem engines_within_error_bound_witness :
    |(⟨8, 1⟩ : Rational).value - 10| ≤ 2 ∧
    |(⟨9, 1⟩ : Rational).value - 10| ≤ 2 :=
  ⟨(engines_within_error_bound 20 100 10 2 ⟨8, 1⟩ ⟨9, 1⟩
      (by norm_num)).1 (by decide),
   (engines_within_error_bound 20 100 10 2 ⟨8, 1⟩ ⟨9, 1⟩
      (by norm_num)).2 (by decide)⟩

/-- C3: the five concrete operator scenarios of the demonstration hold
exactly, as equality of the stored numerator and denominator fields. -/
theorem operator_scenarios :
    ((Rational.new 2 5).bind fun a => (Rational.new 1 2).bind fun b =>
      Rational.div a b) = some ⟨4, 5⟩ ∧
    ((Rational.new 2 7).bind fun a => (Rational.new 1 2).bind fun b =>
      Rational.mul a b) = some ⟨1, 7⟩ ∧
    ((Rational.new 2 3).bind fun a => (Rational.new 1 2).bind fun b =>
      Rational.add a b) = some ⟨7, 6⟩ ∧
    ((Rational.new 8 5).bind fun a => (Rational.new 1 2).bind fun b =>
      Rational.sub a b) = some ⟨11, 10⟩ ∧
    ((Rational.new 2 3).bind fun a => Rational.neg a) = some ⟨-2, 3⟩ := by
  decide

/-- C7 counterexample: dividing `1/1` by the zero-numerator rational `0/1`
does NOT fault: `new(1*1, 1*0) = new(1, 0)` reduces by `gcd(1,0) = 1` and
returns the sentinel `1/0` normally, refuting the claim that every such
division is an arithmetic fault. -/
theorem div_zero_numer_counterexample :
    Rational.div ⟨1, 1⟩ ⟨0, 1⟩ = some ⟨1, 0⟩ ∧
    ¬ Rational.div ⟨1, 1⟩ ⟨0, 1⟩ = none := by
  decide

/-- C7 amended: dividing `a` by a zero-numerator `b` faults (integer
division by zero inside `Rational::new`) exactly when `a.numer * b.denom`
is also zero; otherwise the division returns the non-faulting sentinel
`±1/0` (only a later `value()` on it would hit the zero denominator). -/
theorem div_zero_numer_fault_iff (a b : Rational) (hb : b.numer = 0) :
    Rational.div a b = none ↔ a.numer * b.denom = 0 := by
  unfold Rational.div
  rw [hb, mul_zero, Rational.new_eq_none_iff]
  simp

/-- C7 witness: `0/1` divided by the zero-numerator `0/2` does fault. -/
theorem div_zero_numer_fault_iff_witness :
    Rational.div ⟨0, 1⟩ ⟨0, 2⟩ = none :=
  (div_zero_numer_fault_iff ⟨0, 1⟩ ⟨0, 2⟩ rfl).mpr (by decide)

/-- C10: `Rational::new(0, 0)` faults with an integer division by zero
(`gcd(0,0)` returns `0` and the components are divided by it), and the
fault is reachable through the public interface:
`Rational::new(0,1) / Rational::new(0,1)` constructs `new(0, 0)`. -/
theorem new_zero_zero_fault_reachable :
    Rational.gcd 0 0 = 0 ∧ Rational.new 0 0 = none ∧
    ((Rational.new 0 1).bind fun a => (Rational.new 0 1).bind fun b =>
      Rational.div a b) = none := by
  decide

/-- C2: for nonzero `n` and `d` (in fact whenever not both are zero, which
covers the result of every constructor and operator call that returns),
`Rational::new(n, d)` returns a pair whose components have greatest common
divisor `1` in absolute value and which represents the same rational value
as `n/d` with the same sign convention: `result.numer * d = n *
result.denom`. -/
theorem new_lowest_terms (n d : Int) (hnd : ¬(n = 0 ∧ d = 0)) :
    ∃ r, Rational.new n d = some r ∧ Int.gcd r.numer r.denom = 1 ∧
      r.numer * d = n * r.denom := by
  have hg : Rational.gcd n d ≠ 0 := fun h => hnd (Rational.gcd_eq_zero_iff.mp h)
  refine ⟨⟨n.tdiv (Rational.gcd n d), d.tdiv (Rational.gcd n d)⟩, ?_, ?_, ?_⟩
  · unfold Rational.new
    rw [if_neg hg]
  · show Nat.gcd _ _ = 1
    have hG : (Rational.gcd n d).natAbs = Nat.gcd n.natAbs d.natAbs :=
      Rational.natAbs_gcd n d
    have hGpos : 0 < Nat.gcd n.natAbs d.natAbs := by
      have := Int.natAbs_pos.mpr hg
      omega
    simp only [Int.natAbs_tdiv, hG]
    exact Nat.coprime_div_gcd_div_gcd hGpos
  · obtain ⟨n2, hn⟩ := (Rational.gcd_dvd n d).1
    obtain ⟨d2, hd⟩ := (Rational.gcd_dvd n d).2
    have hG : Rational.gcd n d ≠ 0 := hg
    generalize hGen : Rational.gcd n d = g at hn hd hG
    subst hn hd
    simp only [Int.mul_tdiv_cancel_left _ hG]
    ring

/-- C2 witness: `new(6, -4)` returns numerator `3` and denominator `-2`,
in lowest terms and with the same sign convention as `6 : -4`. -/
theorem new_lowest_terms_witness :
    ∃ r, Rational.new 6 (-4) = some r ∧ Int.gcd r.numer r.denom = 1 ∧
      r.numer * (-4) = 6 * r.denom :=
  new_lowest_terms 6 (-4) (by decide)

/-- C8: `Rational::gcd` terminates on every pair of inputs (it is a total
function of the model), satisfies the Euclidean equations `gcd(a, 0) = a`
and `gcd(a, b) = gcd(b, a % b)` for `b ≠ 0` (with Rust's truncated `%`),
and its recursion depth is bounded by a function of the magnitude of the
inputs: `gcdDepth a b ≤ |b| + 1`. -/
theorem gcd_terminates_euclidean :
    (∀ a : Int, Rational.gcd a 0 = a) ∧
    (∀ a b : Int, b ≠ 0 → Rational.gcd a b = Rational.gcd b (a.tmod b)) ∧
    (∀ a b : Int, Rational.gcdDepth a b ≤ b.natAbs + 1) := by
  refine ⟨?_, ?_, ?_⟩
  · intro a
    rw [Rational.gcd_eq]
    simp
  · intro a b hb
    rw [Rational.gcd_eq, if_neg hb]
  · intro a b
    induction a, b using Rational.gcd_induction with
    | base a =>
      unfold Rational.gcdDepth
      simp
    | step a b hb ih =>
      unfold Rational.gcdDepth
      rw [if_neg hb]
      have := Rational.natAbs_tmod_lt a hb
      omega

/-- C8 witness: the Euclidean step at the concrete pair `(12, 18)` and the
depth bound there. -/
theorem gcd_terminates_euclidean_witness :
    Rational.gcd 7 0 = 7 ∧
    Rational.gcd 12 18 = Rational.gcd 18 (Int.tmod 12 18) ∧
    Rational.gcdDepth 12 18 ≤ 19 :=
  ⟨gcd_terminates_euclidean.1 7,
   gcd_terminates_euclidean.2.1 12 18 (by decide),
   gcd_terminates_euclidean.2.2 12 18⟩

/-- C5 counterexample: for `start = 0/i64::MAX` and `end = 2/1` the bound
pair selected is `(end_bound, start_bound) = (2, 0)` and the window limit
is `U = (i64::MAX - 0) / 2 = 4611686018427387903`, yet at step count
`c = U` (which satisfies `1 ≤ c ≤ U`) the denominator component
`start.denom + c * end.denom = i64::MAX + U` exceeds `i64::MAX`: the limit
only protects the component pair it was computed from, not both. -/
theorem psearch_window_overflow_counterexample :
    Rational.psearchBounds ⟨0, i64MAX⟩ ⟨2, 1⟩ = (2, 0) ∧
    (i64MAX - (Rational.psearchBounds ⟨0, i64MAX⟩ ⟨2, 1⟩).2).tdiv
        (Rational.psearchBounds ⟨0, i64MAX⟩ ⟨2, 1⟩).1 =
      4611686018427387903 ∧
    (1 : Int) ≤ 4611686018427387903 ∧
    ¬ ((⟨0, i64MAX⟩ : Rational).denom +
        4611686018427387903 * (⟨2, 1⟩ : Rational).denom ≤ i64MAX) := by
  refine ⟨by decide, by decide, by decide, by decide⟩

/-- C5 amended: the window limit `U = (i64::MAX - start_bound) /
end_bound` is conservative for both components of `start + c*end`
whenever the selected `end` component dominates the other `end` component
and the selected `start` component dominates the other `start` component
(all components nonnegative and in `i64` range) - which is how `fast_from`
uses it; for arbitrary inputs the non-selected component can overflow. -/
theorem psearch_window_bound_conservative (start endr : Rational) (c : Int)
    (h1 : 0 ≤ start.numer) (h2 : 0 ≤ start.denom)
    (h3 : 0 ≤ endr.numer) (h4 : 0 ≤ endr.denom)
    (h5 : start.numer ≤ i64MAX) (h6 : start.denom ≤ i64MAX)
    (heb : 1 ≤ (Rational.psearchBounds start endr).1)
    (hen : endr.numer ≤ (Rational.psearchBounds start endr).1)
    (hed : endr.denom ≤ (Rational.psearchBounds start endr).1)
    (hsn : start.numer ≤ (Rational.psearchBounds start endr).2)
    (hsd : start.denom ≤ (Rational.psearchBounds start endr).2)
    (hc1 : 1 ≤ c)
    (hc2 : c ≤ (i64MAX - (Rational.psearchBounds start endr).2).tdiv
      (Rational.psearchBounds start endr).1) :
    (0 ≤ start.numer + c * endr.numer ∧
      start.numer + c * endr.numer ≤ i64MAX) ∧
    (0 ≤ start.denom + c * endr.denom ∧
      start.denom + c * endr.denom ≤ i64MAX) := by
  have hsb : (Rational.psearchBounds start endr).2 ≤ i64MAX := by
    unfold Rational.psearchBounds
    split <;> simp <;> assumption
  have hsb0 : 0 ≤ (Rational.psearchBounds start endr).2 := by
    unfold Rational.psearchBounds
    split <;> simp <;> assumption
  have heb0 : (0 : Int) < (Rational.psearchBounds start endr).1 := by omega
  have htd : (i64MAX - (Rational.psearchBounds start endr).2).tdiv
      (Rational.psearchBounds start endr).1 =
      (i64MAX - (Rational.psearchBounds start endr).2) /
        (Rational.psearchBounds start endr).1 :=
    Int.tdiv_eq_ediv (by omega) (by omega)
  rw [htd] at hc2
  have hmul : c * (Rational.psearchBounds start endr).1 ≤
      i64MAX - (Rational.psearchBounds start endr).2 :=
    (Int.le_ediv_iff_mul_le heb0).mp hc2
  have hn : c * endr.numer ≤ c * (Rational.psearchBounds start endr).1 :=
    mul_le_mul_of_nonneg_left hen (by omega)
  have hd : c * endr.denom ≤ c * (Rational.psearchBounds start endr).1 :=
    mul_le_mul_of_nonneg_left hed (by omega)
  have hn0 : 0 ≤ c * endr.numer := mul_nonneg (by omega) h3
  have hd0 : 0 ≤ c * endr.denom := mul_nonneg (by omega) h4
  constructor <;> constructor <;> omega

/-- C5 witness: the first probe family of `fast_from` (`start = 1/1`,
`end = 1/0`, so the selected bounds are `(1, 1)`) at step count `c = 5`. -/
theorem psearch_window_bound_conservative_witness :
    (0 ≤ (⟨1, 1⟩ : Rational).numer + 5 * (⟨1, 0⟩ : Rational).numer ∧
      (⟨1, 1⟩ : Rational).numer + 5 * (⟨1, 0⟩ : Rational).numer ≤ i64MAX) ∧
    (0 ≤ (⟨1, 1⟩ : Rational).denom + 5 * (⟨1, 0⟩ : Rational).denom ∧
      (⟨1, 1⟩ : Rational).denom + 5 * (⟨1, 0⟩ : Rational).denom ≤ i64MAX) :=
  psearch_window_bound_conservative ⟨1, 1⟩ ⟨1, 0⟩ 5 (by decide) (by decide)
    (by decide) (by decide) (by decide) (by decide) (by decide) (by decide)
    (by decide) (by decide) (by decide) (by decide) (by decide)

namespace Rational

/-- A pair that is not `(0, 0)` constructs successfully. -/
theorem new_some {x y : Int} (h : ¬(x = 0 ∧ y = 0)) :
    ∃ r, Rational.new x y = some r := by
  refine ⟨⟨x.tdiv (Rational.gcd x y), y.tdiv (Rational.gcd x y)⟩, ?_⟩
  unfold Rational.new
  rw [if_neg (fun hg => h (gcd_eq_zero_iff.mp hg))]

/-- One step of the diverging `parametric_search` run used below: from the
window `(1, -1)` the probe is `start` itself, which lies below the band,
so the loop sets `lower` to `mid + 1 = 1` and the window never changes. -/
theorem psearchLoop_diverges_aux :
    ∀ fuel : Nat, Rational.psearchLoop true 0 2 (-(i64MAX - 2))
      (-(i64MAX - 2)) 1 (mkRat 1 2) fuel 1 (-1) = none := by
  intro fuel
  induction fuel with
  | zero => rfl
  | succ fuel ih =>
    simp only [Rational.psearchLoop]
    rw [show Rational.new (0 + ((1 : Int) + -1).tdiv 2 * -(i64MAX - 2))
        (2 + ((1 : Int) + -1).tdiv 2 * -(i64MAX - 2)) = some ⟨0, 1⟩ from by
      decide]
    simp only [Option.some_bind]
    rw [if_neg (by decide), if_neg (by decide), if_neg (by decide),
      if_neg (by decide), if_pos (by decide)]
    exact ih

end Rational

/-- C6 counterexample: on `direction = true`, `start = 0/2`,
`end = -(i64::MAX-2) / -(i64::MAX-2)`, `v = 1`, `e = 1/2`, the initial
window limit is `(i64::MAX - 2) / -(i64::MAX-2) = -1 < 1`, the midpoint
`(1 + -1)/2 = 0` never equals the upper bound `-1`, the probe `start`
stays below the band, and `lower` is reset to `0 + 1 = 1` forever: the
loop does not terminate, refuting "terminates for every input". -/
theorem psearch_divergence_counterexample :
    Rational.parametric_searchDiverges true ⟨0, 2⟩
      ⟨-(i64MAX - 2), -(i64MAX - 2)⟩ 1 (mkRat 1 2) := by
  intro fuel
  unfold Rational.parametric_search
  rw [if_neg (by decide)]
  exact Rational.psearchLoop_diverges_aux fuel

namespace Rational

/-- Termination of the binary-search loop on every window with
`1 ≤ lower ≤ upper + 1` (which the wrapper establishes whenever the
initial limit is nonnegative): the fuel `measure + 1` suffices, where
`measure = (upper + 1 - lower).toNat` strictly decreases unless the loop
returns.  The probe never faults because its denominator
`sd + mid * ed ≥ 1`. -/
theorem psearchLoop_terminates (d : Bool) (sn sd en ed : Int) (v e : ℚ)
    (hsd : 1 ≤ sd) (hed : 0 ≤ ed) :
    ∀ (n : Nat) (l u : Int), 1 ≤ l → l ≤ u + 1 → (u + 1 - l).toNat ≤ n →
      ∃ c, Rational.psearchLoop d sn sd en ed v e (n + 1) l u = some c := by
  intro n
  induction n using Nat.strong_induction_on with
  | _ n ih =>
    intro l u hl hlu hm
    have hlu0 : 0 ≤ l + u := by omega
    have hmid : (l + u).tdiv 2 = (l + u) / 2 :=
      Int.tdiv_eq_ediv hlu0 (by norm_num)
    have hmid0 : 0 ≤ (l + u).tdiv 2 := by omega
    obtain ⟨midr, hmidr⟩ : ∃ r, Rational.new (sn + (l + u).tdiv 2 * en)
        (sd + (l + u).tdiv 2 * ed) = some r := by
      apply new_some
      rintro ⟨-, hy⟩
      have : 0 ≤ (l + u).tdiv 2 * ed := mul_nonneg hmid0 hed
      omega
    simp only [Rational.psearchLoop]
    rw [hmidr]
    simp only [Option.some_bind]
    by_cases hq : (l + u).tdiv 2 = u
    · rw [if_pos hq]
      exact ⟨u, rfl⟩
    · rw [if_neg hq]
      have hlt : (l + u).tdiv 2 < u ∧ l ≤ (l + u).tdiv 2 := by
        constructor <;> omega
      obtain ⟨n2, hn2⟩ : ∃ n2, n = n2 + 1 := by
        refine ⟨n - 1, ?_⟩
        omega
      subst hn2
      split_ifs with h1 h2 h3 h4
      · exact ih n2 (by omega) l ((l + u).tdiv 2) hl (by omega) (by omega)
      · exact ih n2 (by omega) ((l + u).tdiv 2 + 1) u (by omega) (by omega)
          (by omega)
      · exact ih n2 (by omega) l ((l + u).tdiv 2) hl (by omega) (by omega)
      · exact ih n2 (by omega) ((l + u).tdiv 2 + 1) u (by omega) (by omega)
          (by omega)
      · exact ⟨(l + u).tdiv 2, rfl⟩

end Rational

/-- C6 amended: the tie-break rule holds as stated - whenever the computed
midpoint equals the current upper bound (and the probe, built first as in
the source, does not fault), the loop returns that upper bound directly -
and the loop terminates for every input whose initial window limit
`U = (i64::MAX - start_bound) / end_bound` is nonnegative (in particular
whenever `end_bound ≥ 1` and `start_bound ≤ i64::MAX`, with a positive
start denominator and nonnegative end denominator so no probe faults);
for windows with a negative limit the loop can run forever
(counterexample). -/
theorem psearch_midpoint_rule_and_termination :
    (∀ (d : Bool) (sn sd en ed : Int) (v e : ℚ) (fuel : Nat) (l u : Int)
        (midr : Rational),
      (l + u).tdiv 2 = u →
      Rational.new (sn + u * en) (sd + u * ed) = some midr →
      Rational.psearchLoop d sn sd en ed v e (fuel + 1) l u = some u) ∧
    (∀ (d : Bool) (start endr : Rational) (v e : ℚ),
      1 ≤ start.denom → 0 ≤ endr.denom →
      1 ≤ (Rational.psearchBounds start endr).1 →
      (Rational.psearchBounds start endr).2 ≤ i64MAX →
      ∃ fuel c, Rational.parametric_search d start endr v e fuel = some c) := by
  constructor
  · intro d sn sd en ed v e fuel l u midr hq hprobe
    simp only [Rational.psearchLoop, hq]
    rw [hprobe]
    simp
  · intro d start endr v e hsd hed heb hsb
    have heb0 : ¬ (Rational.psearchBounds start endr).1 = 0 := by omega
    have hU0 : 0 ≤ (i64MAX - (Rational.psearchBounds start endr).2).tdiv
        (Rational.psearchBounds start endr).1 :=
      Int.tdiv_nonneg (by omega) (by omega)
    obtain ⟨c, hc⟩ := Rational.psearchLoop_terminates d start.numer
      start.denom endr.numer endr.denom v e hsd hed
      ((i64MAX - (Rational.psearchBounds start endr).2).tdiv
        (Rational.psearchBounds start endr).1).toNat 1
      ((i64MAX - (Rational.psearchBounds start endr).2).tdiv
        (Rational.psearchBounds start endr).1)
      (by omega) (by omega) (by omega)
    refine ⟨((i64MAX - (Rational.psearchBounds start endr).2).tdiv
      (Rational.psearchBounds start endr).1).toNat + 1, c, ?_⟩
    unfold Rational.parametric_search
    rw [if_neg heb0]
    exact hc

/-- C6 witness: the tie-break at the collapsed window `(1, 1)` returns `1`,
and the first `fast_from` probe family (`start = 1/1`, `end = 1/0`)
terminates. -/
theorem psearch_midpoint_rule_and_termination_witness :
    Rational.psearchLoop true 1 1 1 0 10 2 1 1 1 = some 1 ∧
    ∃ fuel c, Rational.parametric_search true ⟨1, 1⟩ ⟨1, 0⟩ 10 2 fuel =
      some c :=
  ⟨psearch_midpoint_rule_and_termination.1 true 1 1 1 0 10 2 0 1 1 ⟨2, 1⟩
      (by decide) (by decide),
   psearch_midpoint_rule_and_termination.2 true ⟨1, 1⟩ ⟨1, 0⟩ 10 2
      (by decide) (by decide) (by decide) (by decide)⟩

namespace Rational

/-- What the binary-search loop actually guarantees about a returned count
`c`, given the window invariant `1 ≤ lower ≤ upper` and that the point one
step before the window (`lower - 1`) is on the extending side of the band:
`c ≥ 1`, and either the point at `c - 1` is still on the extending side
(window collapse) or the probe at `c` itself lands inside the band.  The
probe value compared by the loop is the gcd-reduced `Rational`, whose
`value` equals the raw quotient `candVal`. -/
theorem psearchLoop_spec (d : Bool) (sn sd en ed : Int) (v e : ℚ) :
    ∀ (fuel : Nat) (l u c : Int),
      1 ≤ l → l ≤ u →
      Rational.pside d v e (Rational.candVal ⟨sn, sd⟩ ⟨en, ed⟩ (l - 1)) →
      Rational.psearchLoop d sn sd en ed v e fuel l u = some c →
      1 ≤ c ∧
        (Rational.pside d v e (Rational.candVal ⟨sn, sd⟩ ⟨en, ed⟩ (c - 1)) ∨
          (v - e ≤ Rational.candVal ⟨sn, sd⟩ ⟨en, ed⟩ c ∧
            Rational.candVal ⟨sn, sd⟩ ⟨en, ed⟩ c ≤ v + e)) := by
  intro fuel
  induction fuel with
  | zero =>
    intro l u c _ _ _ h
    exact absurd h (by simp [Rational.psearchLoop])
  | succ fuel ih =>
    intro l u c hl hlu hside h
    have hsum : 0 ≤ l + u := by omega
    have hmid : (l + u).tdiv 2 = (l + u) / 2 :=
      Int.tdiv_eq_ediv hsum (by norm_num)
    have hml : l ≤ (l + u).tdiv 2 := by omega
    have hmu : (l + u).tdiv 2 ≤ u := by omega
    simp only [Rational.psearchLoop] at h
    obtain ⟨midr, hmidr, h2⟩ := Option.bind_eq_some.mp h
    have hval : midr.value = Rational.candVal ⟨sn, sd⟩ ⟨en, ed⟩
        ((l + u).tdiv 2) := by
      rw [new_value hmidr]
      rfl
    by_cases hq : (l + u).tdiv 2 = u
    · rw [if_pos hq] at h2
      have huc : u = c := Option.some_inj.mp h2
      refine ⟨by omega, Or.inl ?_⟩
      have hcl : c - 1 = l - 1 := by omega
      rw [hcl]
      exact hside
    · rw [if_neg hq] at h2
      by_cases hc1 : d = false ∧ midr.value < Rational.qsub v e
      · rw [if_pos hc1] at h2
        exact ih l ((l + u).tdiv 2) c hl (by omega) hside h2
      · rw [if_neg hc1] at h2
        by_cases hc2 : d = false ∧ midr.value > Rational.qadd v e
        · rw [if_pos hc2] at h2
          refine ih ((l + u).tdiv 2 + 1) u c (by omega) (by omega) ?_ h2
          have h6 := hc2.2
          rw [hval, qadd_eq] at h6
          unfold Rational.pside
          rw [hc2.1]
          simpa using h6
        · rw [if_neg hc2] at h2
          by_cases hc3 : d = true ∧ midr.value > Rational.qadd v e
          · rw [if_pos hc3] at h2
            exact ih l ((l + u).tdiv 2) c hl (by omega) hside h2
          · rw [if_neg hc3] at h2
            by_cases hc4 : d = true ∧ midr.value < Rational.qsub v e
            · rw [if_pos hc4] at h2
              refine ih ((l + u).tdiv 2 + 1) u c (by omega) (by omega) ?_ h2
              have h6 := hc4.2
              rw [hval, qsub_eq] at h6
              unfold Rational.pside
              rw [hc4.1]
              simpa using h6
            · rw [if_neg hc4] at h2
              obtain rfl : (l + u).tdiv 2 = c := Option.some_inj.mp h2
              refine ⟨by omega, Or.inr ?_⟩
              rw [← hval]
              cases d with
              | false =>
                constructor
                · have h5 : ¬ midr.value < Rational.qsub v e := fun hcon =>
                    hc1 ⟨rfl, hcon⟩
                  rw [qsub_eq] at h5
                  linarith [not_lt.mp h5]
                · have h5 : ¬ midr.value > Rational.qadd v e := fun hcon =>
                    hc2 ⟨rfl, hcon⟩
                  rw [qadd_eq] at h5
                  linarith [not_lt.mp h5]
              | true =>
                constructor
                · have h5 : ¬ midr.value < Rational.qsub v e := fun hcon =>
                    hc4 ⟨rfl, hcon⟩
                  rw [qsub_eq] at h5
                  linarith [not_lt.mp h5]
                · have h5 : ¬ midr.value > Rational.qadd v e := fun hcon =>
                    hc3 ⟨rfl, hcon⟩
                  rw [qadd_eq] at h5
                  linarith [not_lt.mp h5]

end Rational

/-- C4 counterexample: in the run `fast_from(10, 2)` the first iteration
has mediant `m = 1/1` with value `1` below `v - error_bound = 8`, and
`parametric_search(true, m, upper = 1/0, 10, 2)` returns `c = 8`; but the
point `(m.n + (c-1)*upper.n) / (m.d + (c-1)*upper.d) = 8/1` is NOT below
`8`, while the count `7` does satisfy that inequality: the returned count
is not the largest one whose point stays below the band (the search stops
at the first probe landing inside the band), and the new lower bound `8/1`
is not below `v - error_bound`. -/
theorem psearch_not_largest_count_counterexample :
    Rational.fast_from 10 2 10 100 = some ⟨9, 1⟩ ∧
    Rational.new (0 + 1) (1 + 0) = some ⟨1, 1⟩ ∧
    (⟨1, 1⟩ : Rational).value < Rational.qsub 10 2 ∧
    Rational.parametric_search true ⟨1, 1⟩ ⟨1, 0⟩ 10 2 100 = some 8 ∧
    ¬ (Rational.candVal ⟨1, 1⟩ ⟨1, 0⟩ (8 - 1) < 10 - 2) ∧
    Rational.candVal ⟨1, 1⟩ ⟨1, 0⟩ (7 - 1) < 10 - 2 := by
  refine ⟨by decide, by decide, by decide, by decide, ?_, ?_⟩
  · unfold Rational.candVal
    norm_num
  · unfold Rational.candVal
    norm_num

/-- C4 amended: whenever a `fast_from` iteration calls
`parametric_search` with a mediant on the extending side of the band
(`pside`), and the initial window limit is at least `1`, the returned
count `c` satisfies `c ≥ 1` and either the point at `c - 1` steps is still
on the extending side (window collapse) or the probe at `c` lands inside
the tolerance band; `c` need not be the LARGEST count whose point stays on
the extending side (counterexample), so the updated bound can land inside
the band rather than strictly outside it.  Both branches (`direction =
true` and `false`) are covered. -/
theorem psearch_count_characterization (d : Bool) (start endr : Rational)
    (v e : ℚ) (fuel : Nat) (c : Int)
    (hstart : Rational.pside d v e (Rational.candVal start endr 0))
    (hU : 1 ≤ (i64MAX - (Rational.psearchBounds start endr).2).tdiv
      (Rational.psearchBounds start endr).1)
    (hres : Rational.parametric_search d start endr v e fuel = some c) :
    1 ≤ c ∧
      (Rational.pside d v e (Rational.candVal start endr (c - 1)) ∨
        (v - e ≤ Rational.candVal start endr c ∧
          Rational.candVal start endr c ≤ v + e)) := by
  unfold Rational.parametric_search at hres
  by_cases h0 : (Rational.psearchBounds start endr).1 = 0
  · rw [if_pos h0] at hres
    exact absurd hres (by simp)
  · rw [if_neg h0] at hres
    have := Rational.psearchLoop_spec d start.numer start.denom endr.numer
      endr.denom v e fuel 1
      ((i64MAX - (Rational.psearchBounds start endr).2).tdiv
        (Rational.psearchBounds start endr).1) c
      (by omega) hU (by simpa using hstart) hres
    simpa using this

/-- C4 witness: the first `fast_from(10, 2)` iteration; the returned count
`8` probes `9/1`, inside the band `[8, 12]`. -/
theorem psearch_count_characterization_witness :
    (1 : Int) ≤ 8 ∧
      (Rational.pside true 10 2 (Rational.candVal ⟨1, 1⟩ ⟨1, 0⟩ (8 - 1)) ∨
        (10 - 2 ≤ Rational.candVal ⟨1, 1⟩ ⟨1, 0⟩ 8 ∧
          Rational.candVal ⟨1, 1⟩ ⟨1, 0⟩ 8 ≤ 10 + 2)) :=
  psearch_count_characterization true ⟨1, 1⟩ ⟨1, 0⟩ 10 2 100 8
    (by unfold Rational.pside Rational.candVal; norm_num)
    (by decide) (by decide)

namespace Rational

/-- A pair admitting an integer combination equal to `1` has `gcd = 1`
(for nonnegative components the program's signed gcd is exactly `1`). -/
theorem gcd_eq_one_of_combo {x y p q : Int} (hx : 0 ≤ x) (hy : 0 ≤ y)
    (h : p * x + q * y = 1) : Rational.gcd x y = 1 := by
  have d1 : (Int.gcd x y : Int) ∣ x := Int.gcd_dvd_left
  have d2 : (Int.gcd x y : Int) ∣ y := Int.gcd_dvd_right
  have h1 : (Int.gcd x y : Int) ∣ 1 := by
    have : (Int.gcd x y : Int) ∣ p * x + q * y :=
      Dvd.dvd.add (d1.mul_left p) (d2.mul_left q)
    rwa [h] at this
  have h2 : Int.gcd x y = 1 := by
    have := Int.ofNat_dvd.mp (by exact_mod_cast h1)
    exact Nat.dvd_one.mp this
  have h3 : (Rational.gcd x y).natAbs = 1 := by
    rw [natAbs_gcd]
    exact h2
  have h4 : 0 ≤ Rational.gcd x y := gcd_nonneg x y hx hy
  omega

/-- Any count returned by the binary-search loop from a window with
`1 ≤ lower ≤ upper` is at least `1`. -/
theorem psearchLoop_ge_one (d : Bool) (sn sd en ed : Int) (v e : ℚ) :
    ∀ (fuel : Nat) (l u c : Int), 1 ≤ l → l ≤ u →
      Rational.psearchLoop d sn sd en ed v e fuel l u = some c → 1 ≤ c := by
  intro fuel
  induction fuel with
  | zero =>
    intro l u c _ _ h
    exact absurd h (by simp [Rational.psearchLoop])
  | succ fuel ih =>
    intro l u c hl hlu h
    have hsum : 0 ≤ l + u := by omega
    have hmid : (l + u).tdiv 2 = (l + u) / 2 :=
      Int.tdiv_eq_ediv hsum (by norm_num)
    simp only [Rational.psearchLoop] at h
    obtain ⟨midr, hmidr, h2⟩ := Option.bind_eq_some.mp h
    by_cases hq : (l + u).tdiv 2 = u
    · rw [if_pos hq] at h2
      have := Option.some_inj.mp h2
      omega
    · rw [if_neg hq] at h2
      split_ifs at h2
      · exact ih l _ c hl (by omega) h2
      · exact ih _ u c (by omega) (by omega) h2
      · exact ih l _ c hl (by omega) h2
      · exact ih _ u c (by omega) (by omega) h2
      · have := Option.some_inj.mp h2
        omega

end Rational

/-- C9: the unimodular invariant `u.numer * l.denom - l.numer * u.denom =
1` (with the accompanying sign facts) holds for the initial bounds `0/1`,
`1/0` of both engines and is preserved by every bound update of `from` and
of `fast_from` - including the `(c-1)`-step leap, for any count `c ≥ 1`,
and `parametric_search` only returns counts `c ≥ 1` when its initial
window limit is at least `1`.  Consequently every mediant and every
leapt-to pair already has gcd `1`, so the reduction inside
`Rational::new` returns it unchanged (the `new (...) = some ⟨...⟩`
conjuncts). -/
theorem sb_invariant_preserved (l u : Rational) (c : Int)
    (hinv : Rational.SBInv l u) (hc : 1 ≤ c) :
    Rational.SBInv ⟨0, 1⟩ ⟨1, 0⟩ ∧
    (Rational.new (l.numer + u.numer) (l.denom + u.denom) =
      some ⟨l.numer + u.numer, l.denom + u.denom⟩) ∧
    Rational.SBInv ⟨l.numer + u.numer, l.denom + u.denom⟩ u ∧
    Rational.SBInv l ⟨l.numer + u.numer, l.denom + u.denom⟩ ∧
    (Rational.new ((l.numer + u.numer) + (c - 1) * u.numer)
        ((l.denom + u.denom) + (c - 1) * u.denom) =
      some ⟨(l.numer + u.numer) + (c - 1) * u.numer,
        (l.denom + u.denom) + (c - 1) * u.denom⟩) ∧
    Rational.SBInv ⟨(l.numer + u.numer) + (c - 1) * u.numer,
        (l.denom + u.denom) + (c - 1) * u.denom⟩ u ∧
    (Rational.new ((l.numer + u.numer) + (c - 1) * l.numer)
        ((l.denom + u.denom) + (c - 1) * l.denom) =
      some ⟨(l.numer + u.numer) + (c - 1) * l.numer,
        (l.denom + u.denom) + (c - 1) * l.denom⟩) ∧
    Rational.SBInv l ⟨(l.numer + u.numer) + (c - 1) * l.numer,
        (l.denom + u.denom) + (c - 1) * l.denom⟩ ∧
    (∀ (d : Bool) (start endr : Rational) (v e : ℚ) (fuel : Nat) (c2 : Int),
      1 ≤ (i64MAX - (Rational.psearchBounds start endr).2).tdiv
        (Rational.psearchBounds start endr).1 →
      Rational.parametric_search d start endr v e fuel = some c2 →
        1 ≤ c2) := by
  obtain ⟨hdet, hln, hld, hun, hud⟩ := hinv
  have hc1n : 0 ≤ (c - 1) * u.numer := mul_nonneg (by omega) (by omega)
  have hc1d : 0 ≤ (c - 1) * u.denom := mul_nonneg (by omega) (by omega)
  have hc2n : 0 ≤ (c - 1) * l.numer := mul_nonneg (by omega) (by omega)
  have hc2d : 0 ≤ (c - 1) * l.denom := mul_nonneg (by omega) (by omega)
  have hgm : Rational.gcd (l.numer + u.numer) (l.denom + u.denom) = 1 :=
    Rational.gcd_eq_one_of_combo (p := -u.denom) (q := u.numer)
      (by omega) (by omega) (by linear_combination hdet)
  have hgl : Rational.gcd ((l.numer + u.numer) + (c - 1) * u.numer)
      ((l.denom + u.denom) + (c - 1) * u.denom) = 1 :=
    Rational.gcd_eq_one_of_combo (p := -u.denom) (q := u.numer)
      (by omega) (by omega) (by linear_combination hdet)
  have hgu : Rational.gcd ((l.numer + u.numer) + (c - 1) * l.numer)
      ((l.denom + u.denom) + (c - 1) * l.denom) = 1 :=
    Rational.gcd_eq_one_of_combo (p := l.denom) (q := -l.numer)
      (by omega) (by omega) (by linear_combination hdet)
  refine ⟨by unfold Rational.SBInv; decide, ?_, ?_, ?_, ?_, ?_, ?_, ?_, ?_⟩
  · unfold Rational.new
    rw [hgm]
    norm_num
  · unfold Rational.SBInv
    dsimp only
    refine ⟨by linear_combination hdet, by omega, by omega, by omega,
      by omega⟩
  · unfold Rational.SBInv
    dsimp only
    refine ⟨by linear_combination hdet, by omega, by omega, by omega,
      by omega⟩
  · unfold Rational.new
    rw [hgl]
    norm_num
  · unfold Rational.SBInv
    dsimp only
    refine ⟨by linear_combination hdet, by omega, by omega, by omega,
      by omega⟩
  · unfold Rational.new
    rw [hgu]
    norm_num
  · unfold Rational.SBInv
    dsimp only
    refine ⟨by linear_combination hdet, by omega, by omega, by omega,
      by omega⟩
  · intro d start endr v e fuel c2 hU hres
    unfold Rational.parametric_search at hres
    by_cases h0 : (Rational.psearchBounds start endr).1 = 0
    · rw [if_pos h0] at hres
      exact absurd hres (by simp)
    · rw [if_neg h0] at hres
      exact Rational.psearchLoop_ge_one d start.numer start.denom
        endr.numer endr.denom v e fuel 1 _ c2 (by omega) hU hres

/-- C9 witness: one step from the initial bounds, and the leap with
`c = 8` as in `fast_from(10, 2)`: the mediant `1/1` and the leapt-to pair
`8/1` are already in lowest terms and keep the invariant. -/
theorem sb_invariant_preserved_witness :
    Rational.SBInv ⟨0 + 1, 1 + 0⟩ ⟨1, 0⟩ ∧
    Rational.new ((0 + 1) + (8 - 1) * 1) ((1 + 0) + (8 - 1) * 0) =
      some ⟨(0 + 1) + (8 - 1) * 1, (1 + 0) + (8 - 1) * 0⟩ :=
  ⟨(sb_invariant_preserved ⟨0, 1⟩ ⟨1, 0⟩ 8
      (by unfold Rational.SBInv; decide) (by decide)).2.2.1,
   (sb_invariant_preserved ⟨0, 1⟩ ⟨1, 0⟩ 8
      (by unfold Rational.SBInv; decide) (by decide)).2.2.2.2.1⟩
